import Mathlib

/-!
Verification of the managarm DRM core (`src/core/drm/include/core/drm/core.hpp`)
and the thor kernel thread queue (`src/thor/kernel/src/thread.cpp`).

The DRM header declares the interface of `File`, `PrimeFile`, `Configuration`
and the mode-object graph; the method bodies live outside the given sources,
so those operations are modelled from the specification, as noted on each
definition.  `ThreadQueue` is translated directly from its implementation in
`thread.cpp`.
-/

namespace DrmCore

/-- A DRM event as declared in `struct Event` of core.hpp:
cookie, crtcId and timestamp fields. -/
structure Event where
  cookie : Nat
  crtcId : Nat
  timestamp : Nat
deriving DecidableEq

/-- Modelled from the spec: `BufferObject` is an abstract GPU memory handle
with a size and a (memory-descriptor, offset) pair for mapping; the concrete
driver subclasses implementing `getSize`/`getMemory` are outside the sources. -/
structure BufferObject where
  memDescriptor : Nat
  memOffset : Nat
  boSize : Nat
deriving DecidableEq

/-- The (descriptor, offset) pair returned by `BufferObject::getMemory`. -/
def BufferObject.getMemory (bo : BufferObject) : Nat × Nat :=
  (bo.memDescriptor, bo.memOffset)

/-- Outcome of a `File::read` call: a delivered event, an immediate
would-block failure, or a suspension of the caller (blocking mode). -/
inductive ReadResult where
  | event : Event → ReadResult
  | wouldBlock : ReadResult
  | suspend : ReadResult
deriving DecidableEq

/-- The per-open-fd DRM state of `struct File` in core.hpp: the
`_buffers` handle table with its id allocator, the `_isBlocking` flag,
the `_pendingEvents` deque and the `_eventSequence` counter. -/
structure File where
  buffers : List (Nat × BufferObject)
  nextHandle : Nat
  isBlocking : Bool
  pendingEvents : List Event
  eventSequence : Nat
deriving DecidableEq

/-- A freshly opened File: `_isBlocking = true` is the default member
initializer in core.hpp; the handle table and event queue start empty. -/
def File.new : File :=
  { buffers := [], nextHandle := 1, isBlocking := true,
    pendingEvents := [], eventSequence := 0 }

/-- `File::setBlocking`. -/
def File.setBlocking (f : File) (b : Bool) : File :=
  { f with isBlocking := b }

/-- Modelled from the spec: `File::createHandle` registers a BufferObject
under a fresh local handle in this File's table and returns its fake mmap
offset, unique for the File's lifetime; the body is outside the sources. -/
def File.createHandle (f : File) (bo : BufferObject) : Nat × File :=
  (f.nextHandle,
    { f with buffers := (f.nextHandle, bo) :: f.buffers,
             nextHandle := f.nextHandle + 1 })

/-- Association-list lookup used for the `_buffers` table and the
credential table. -/
def lookupBuf : List (Nat × BufferObject) → Nat → Option BufferObject
  | [], _ => none
  | e :: es, off => if e.1 = off then some e.2 else lookupBuf es off

/-- Modelled from the spec: `File::resolveHandle` is the inverse lookup of
`createHandle`; resolving an unregistered offset fails with not-found. -/
def File.resolveHandle (f : File) (off : Nat) : Option BufferObject :=
  lookupBuf f.buffers off

/-- Modelled from the spec: `File::postEvent` appends the event to the
pending-event deque (`_pendingEvents`) and wakes any waiter. -/
def File.postEvent (f : File) (e : Event) : File :=
  { f with pendingEvents := f.pendingEvents ++ [e] }

/-- Modelled from the spec: `File::read` returns pending events in FIFO
order; on an empty queue it suspends in blocking mode and fails with a
would-block condition otherwise; each successful read bumps
`_eventSequence`. -/
def File.read (f : File) : ReadResult × File :=
  match f.pendingEvents with
  | [] => (if f.isBlocking then ReadResult.suspend else ReadResult.wouldBlock, f)
  | e :: rest =>
      (ReadResult.event e,
        { f with pendingEvents := rest, eventSequence := f.eventSequence + 1 })

/-- Drain a File by `n` repeated reads, collecting delivered events. -/
def File.drainN : Nat → File → List Event × File
  | 0, f => ([], f)
  | n + 1, f =>
      match f.read with
      | (ReadResult.event e, f1) =>
          let p := File.drainN n f1
          (e :: p.1, p.2)
      | (_, f1) => ([], f1)

/-- Modelled from the spec: the device-wide table binding exported 16-byte
credentials to BufferObjects, shared by all Files; its implementation is
outside the sources.  Credentials are abstracted as naturals. -/
abbrev CredTable := List (Nat × BufferObject)

/-- Modelled from the spec: `File::exportBufferObject` binds a credential to
the BufferObject held under a local handle; fails if the handle is invalid,
leaving the table unchanged. -/
def File.exportBufferObject (f : File) (tab : CredTable) (h cred : Nat) :
    Bool × CredTable :=
  match f.resolveHandle h with
  | none => (false, tab)
  | some bo => (true, (cred, bo) :: tab)

/-- Modelled from the spec: `File::importBufferObject` resolves a credential
exported by some File, aliasing the same BufferObject, and installs it in
this File's table under an independently numbered local handle. -/
def File.importBufferObject (f : File) (tab : CredTable) (cred : Nat) :
    Option (BufferObject × Nat × File) :=
  match lookupBuf tab cred with
  | none => none
  | some bo => some (bo, (f.createHandle bo).1, (f.createHandle bo).2)

/-- Modelled from the spec: `PrimeFile` of core.hpp holds only a memory
descriptor, a cursor `offset` and a `size`; the seek bodies are outside the
sources and are modelled as linear seeks over `[0, size)`. -/
structure PrimeFile where
  memory : Nat
  offset : Nat
  fsize : Nat
deriving DecidableEq

/-- Modelled from the spec: `PrimeFile::seekAbs` moves the cursor to an
absolute position inside `[0, size)`; on success it returns the updated
view and the new cursor. -/
def PrimeFile.seekAbs (p : PrimeFile) (o : Int) : Option (PrimeFile × Nat) :=
  if 0 ≤ o ∧ o < (p.fsize : Int) then some ({ p with offset := o.toNat }, o.toNat)
  else none

/-- Modelled from the spec: `PrimeFile::seekRel` seeks relative to the
current cursor. -/
def PrimeFile.seekRel (p : PrimeFile) (o : Int) : Option (PrimeFile × Nat) :=
  p.seekAbs ((p.offset : Int) + o)

/-- Modelled from the spec: `PrimeFile::seekEof` seeks relative to the end
of the buffer. -/
def PrimeFile.seekEof (p : PrimeFile) (o : Int) : Option (PrimeFile × Nat) :=
  p.seekAbs ((p.fsize : Int) + o)

/-- Modelled from the spec: `PrimeFile::accessMemory` returns the memory
descriptor of the single exported buffer; a pure pass-through. -/
def PrimeFile.accessMemory (p : PrimeFile) : Nat :=
  p.memory

/-- Modelled from the spec: the state of the `async::oneshot_event _ev`
inside `Configuration` (the libasync implementation is outside the
sources): initially pending, raised once by `complete()`. -/
inductive OneshotState where
  | pending
  | raised
deriving DecidableEq

/-- Raising a one-shot event succeeds only while it is still pending;
a second raise is rejected. -/
def oneshotRaise : OneshotState → Option OneshotState
  | OneshotState.pending => some OneshotState.raised
  | OneshotState.raised => none

/-- `Configuration::waitForCompletion` resolves exactly when the one-shot
event has been raised; while pending the caller stays suspended. -/
def waitResolves : OneshotState → Bool
  | OneshotState.pending => false
  | OneshotState.raised => true

/-- Run `k` attempted `complete()` calls on the event, counting how many
actually fire. -/
def runCompletes : OneshotState → Nat → OneshotState × Nat
  | s, 0 => (s, 0)
  | s, k + 1 =>
      match oneshotRaise s with
      | some s1 =>
          let p := runCompletes s1 k
          (p.1, p.2 + 1)
      | none => runCompletes s k

/-- Property id for CRTC_ID assignments. -/
def propCrtcId : Nat := 1

/-- Property id for FB_ID assignments. -/
def propFbId : Nat := 2

/-- Property id for ACTIVE assignments. -/
def propActive : Nat := 3

/-- Property id for MODE_ID assignments. -/
def propModeId : Nat := 4

/-- Property id for DPMS assignments. -/
def propDpms : Nat := 5

/-- An Assignment as in the spec: (object-ref, property-id, value). -/
structure Assignment where
  objectId : Nat
  propId : Nat
  value : Nat
deriving DecidableEq

/-- Modelled from the spec: a Plane together with its `PlaneState`
(assigned CRTC and FrameBuffer, 0 meaning none) and its fixed
`possibleCrtcs` routing list. -/
structure PlaneM where
  id : Nat
  possibleCrtcs : List Nat
  crtcId : Nat
  fbId : Nat
deriving DecidableEq

/-- Modelled from the spec: a Crtc together with its `CrtcState`
(active flag and mode blob id, 0 meaning none). -/
structure CrtcM where
  id : Nat
  active : Bool
  modeBlob : Nat
deriving DecidableEq

/-- Modelled from the spec: a Connector together with its `ConnectorState`
(assigned CRTC, 0 meaning none, and dpms power state). -/
structure ConnectorM where
  id : Nat
  crtcId : Nat
  dpms : Nat
deriving DecidableEq

/-- Modelled from the spec: the Device registry owning all ModeObjects,
with the registered FrameBuffer and Blob id ranges; a full pipeline state.
An `AtomicState` candidate is a value of the same shape. -/
structure DeviceM where
  crtcs : List CrtcM
  planes : List PlaneM
  connectors : List ConnectorM
  fbIds : List Nat
  blobIds : List Nat
deriving DecidableEq

/-- `Plane::getAssignments`: the canonical property vector of a plane. -/
def PlaneM.getAssignments (p : PlaneM) : List Assignment :=
  [{ objectId := p.id, propId := propCrtcId, value := p.crtcId },
   { objectId := p.id, propId := propFbId, value := p.fbId }]

/-- `Crtc::getAssignments`: the canonical property vector of a CRTC. -/
def CrtcM.getAssignments (c : CrtcM) : List Assignment :=
  [{ objectId := c.id, propId := propActive, value := if c.active then 1 else 0 },
   { objectId := c.id, propId := propModeId, value := c.modeBlob }]

/-- `Connector::getAssignments`: the canonical property vector of a
connector. -/
def ConnectorM.getAssignments (k : ConnectorM) : List Assignment :=
  [{ objectId := k.id, propId := propCrtcId, value := k.crtcId },
   { objectId := k.id, propId := propDpms, value := k.dpms }]

/-- All assignment vectors of every ModeObject of the device, i.e. the
observable state `getAssignments` exposes. -/
def allAssignments (dev : DeviceM) : List Assignment :=
  dev.crtcs.flatMap CrtcM.getAssignments ++ dev.planes.flatMap PlaneM.getAssignments
    ++ dev.connectors.flatMap ConnectorM.getAssignments

/-- Apply one property value onto a cloned plane state; unknown properties
are rejected. -/
def applyToPlane (p : PlaneM) (prop v : Nat) : Option PlaneM :=
  if prop = propCrtcId then some { p with crtcId := v }
  else if prop = propFbId then some { p with fbId := v }
  else none

/-- Apply one property value onto a cloned CRTC state. -/
def applyToCrtc (c : CrtcM) (prop v : Nat) : Option CrtcM :=
  if prop = propActive then some { c with active := v != 0 }
  else if prop = propModeId then some { c with modeBlob := v }
  else none

/-- Apply one property value onto a cloned connector state. -/
def applyToConnector (k : ConnectorM) (prop v : Nat) : Option ConnectorM :=
  if prop = propCrtcId then some { k with crtcId := v }
  else if prop = propDpms then some { k with dpms := v }
  else none

/-- Update the unique element with the given id in a list of mode objects,
failing if it is absent or the update itself fails. -/
def updateById {α : Type} (getId : α → Nat) (upd : α → Option α) :
    List α → Nat → Option (List α)
  | [], _ => none
  | x :: xs, oid =>
      if getId x = oid then (upd x).map (fun y => y :: xs)
      else (updateById getId upd xs oid).map (fun ys => x :: ys)

/-- Modelled from the spec: apply a single Assignment onto the candidate
state, locating the target object by id; unknown ids or properties invalid
for the object type fail. -/
def applyAssignment (dev : DeviceM) (a : Assignment) : Option DeviceM :=
  match updateById PlaneM.id (fun p => applyToPlane p a.propId a.value)
      dev.planes a.objectId with
  | some ps => some { dev with planes := ps }
  | none =>
      match updateById CrtcM.id (fun c => applyToCrtc c a.propId a.value)
          dev.crtcs a.objectId with
      | some cs => some { dev with crtcs := cs }
      | none =>
          match updateById ConnectorM.id
              (fun k => applyToConnector k a.propId a.value)
              dev.connectors a.objectId with
          | some ks => some { dev with connectors := ks }
          | none => none

/-- Apply a whole Assignment list onto the candidate state. -/
def applyAll (dev : DeviceM) : List Assignment → Option DeviceM
  | [] => some dev
  | a :: rest =>
      match applyAssignment dev a with
      | none => none
      | some d1 => applyAll d1 rest

/-- Validation of a single plane of the candidate: an assigned CRTC must
exist and be legal per `possibleCrtcs`, an assigned FrameBuffer must be
registered. -/
def planeOk (dev : DeviceM) (p : PlaneM) : Bool :=
  (p.crtcId == 0
      || ((dev.crtcs.map CrtcM.id).contains p.crtcId
          && p.possibleCrtcs.contains p.crtcId))
    && (p.fbId == 0 || dev.fbIds.contains p.fbId)

/-- Validation of a single CRTC of the candidate: a set mode blob must be
registered and an active CRTC needs a mode. -/
def crtcOk (dev : DeviceM) (c : CrtcM) : Bool :=
  (c.modeBlob == 0 || dev.blobIds.contains c.modeBlob)
    && (!c.active || c.modeBlob != 0)

/-- Validation of a single connector of the candidate: an assigned CRTC
must exist. -/
def connectorOk (dev : DeviceM) (k : ConnectorM) : Bool :=
  k.crtcId == 0 || (dev.crtcs.map CrtcM.id).contains k.crtcId

/-- Whole-state validation of the candidate AtomicState. -/
def validateState (dev : DeviceM) : Bool :=
  dev.planes.all (planeOk dev) && dev.crtcs.all (crtcOk dev)
    && dev.connectors.all (connectorOk dev)

/-- Modelled from the spec: `Configuration::capture` clones the live state,
applies the Assignments onto the clones and validates the result as a
whole, returning the candidate AtomicState on success and nothing on any
violation; the driver implementations are outside the sources. -/
def capture (assignments : List Assignment) (dev : DeviceM) : Option DeviceM :=
  match applyAll dev assignments with
  | none => none
  | some st => if validateState st then some st else none

/-- The full reconfiguration step: `capture` followed, on success only, by
`commit` publishing the candidate as the live state. -/
def configure (dev : DeviceM) (assignments : List Assignment) :
    Bool × DeviceM :=
  match capture assignments dev with
  | none => (false, dev)
  | some st => (true, st)

/-- All ModeObject ids of the device, across the three object kinds. -/
def allIds (dev : DeviceM) : List Nat :=
  dev.planes.map PlaneM.id ++ dev.crtcs.map CrtcM.id
    ++ dev.connectors.map ConnectorM.id

/-- A small concrete device (one active CRTC, one primary plane, one
connector) used to evaluate the model on closed inputs. -/
def devW : DeviceM :=
  { crtcs := [{ id := 1, active := true, modeBlob := 10 }],
    planes := [{ id := 2, possibleCrtcs := [1], crtcId := 1, fbId := 20 }],
    connectors := [{ id := 3, crtcId := 1, dpms := 0 }],
    fbIds := [20], blobIds := [10] }

end DrmCore

namespace Thor

/-- The in-queue pointer fields of a `Thread` in thread.cpp:
`p_nextInQueue` and `p_previousInQueue`, null pointers as `none`. -/
structure ThreadNode where
  next : Option Nat
  prev : Option Nat
deriving DecidableEq

/-- The `ThreadQueue` of thread.cpp: `p_front`, `p_back`, and the pointer
fields of every thread, modelled as a total map from thread id. -/
structure ThreadQueue where
  nodes : Nat → ThreadNode
  front : Option Nat
  back : Option Nat

/-- `ThreadQueue::empty`: `p_front.get() == nullptr`. -/
def ThreadQueue.emptyq (q : ThreadQueue) : Bool :=
  q.front.isNone

/-- `ThreadQueue::addBack`: save the old back, set `p_back` to the new
thread; if the queue was empty just set `p_front`, otherwise link the new
thread behind the old back node. -/
def ThreadQueue.addBack (q : ThreadQueue) (t : Nat) : ThreadQueue :=
  match q.front with
  | none => { q with front := some t, back := some t }
  | some _ =>
      match q.back with
      | none => { q with back := some t }
      | some b =>
          { nodes := Function.update
              (Function.update q.nodes t
                { next := (q.nodes t).next, prev := some b })
              b { next := some t, prev := (q.nodes b).prev },
            front := q.front,
            back := some t }

/-- `ThreadQueue::removeFront` (precondition `!empty()`): move the front
thread out, null its pointers, fix the second node's prev pointer or clear
`p_back`, and advance `p_front`.  On the unreachable empty queue the model
returns thread 0 and the queue unchanged. -/
def ThreadQueue.removeFront (q : ThreadQueue) : Nat × ThreadQueue :=
  match q.front with
  | none => (0, q)
  | some a =>
      let nxt := (q.nodes a).next
      let f1 := Function.update q.nodes a { next := none, prev := none }
      match nxt with
      | none => (a, { nodes := f1, front := none, back := none })
      | some b =>
          (a, { nodes := Function.update f1 b { next := (f1 b).next, prev := none },
                front := some b, back := q.back })

/-- `ThreadQueue::remove` (precondition: the thread is linked in this
queue): unlink `t`, nulling its pointers, fixing `p_back`/the successor's
prev pointer, and `p_front`/the predecessor's next pointer.  The source
dereferences the successor (resp. predecessor) when `t` is not the back
(resp. front); those pointers are non-null exactly then, so the model's
fallback arms are unreachable under the queue invariant. -/
def ThreadQueue.remove (q : ThreadQueue) (t : Nat) : Nat × ThreadQueue :=
  let nxt := (q.nodes t).next
  let prv := (q.nodes t).prev
  let f1 := Function.update q.nodes t { next := none, prev := none }
  let fb :=
    if q.back = some t then f1
    else
      match nxt with
      | some n => Function.update f1 n { next := (f1 n).next, prev := prv }
      | none => f1
  let bk := if q.back = some t then prv else q.back
  if q.front = some t then
    (t, { nodes := fb, front := nxt, back := bk })
  else
    match prv with
    | some pn =>
        (t, { nodes := Function.update fb pn { next := nxt, prev := (fb pn).prev },
              front := q.front, back := bk })
    | none => (t, { nodes := fb, front := q.front, back := bk })

/-- A doubly-linked segment: `Seg f p x l y n` states that following the
next pointers of `f` from entry pointer `x` lists exactly `l`, the first
node's prev pointer is `p`, the last node is pointed to by `y`, and the
last node's next pointer is `n` (for the empty segment `x = n` and
`y = p`). -/
inductive Seg (f : Nat → ThreadNode) :
    Option Nat → Option Nat → List Nat → Option Nat → Option Nat → Prop
  | nil (p n : Option Nat) : Seg f p n [] p n
  | cons (p : Option Nat) (a : Nat) (x : Option Nat) (l : List Nat)
      (y n : Option Nat) (ha : f a = { next := x, prev := p })
      (h : Seg f (some a) x l y n) : Seg f p (some a) (a :: l) y n

/-- The queue invariant: the nodes from `p_front` to `p_back` form a
doubly-linked list of the distinct threads `l`. -/
def Inv (q : ThreadQueue) (l : List Nat) : Prop :=
  Seg q.nodes none q.front l q.back none ∧ l.Nodup

/-- The node map of a concrete two-element queue holding threads 1 and 2. -/
def q0nodes : Nat → ThreadNode :=
  fun n =>
    if n = 1 then { next := some 2, prev := none }
    else if n = 2 then { next := none, prev := some 1 }
    else { next := none, prev := none }

/-- A concrete two-element queue holding threads 1 and 2, used to evaluate
the queue operations on closed inputs. -/
def q0 : ThreadQueue :=
  { nodes := q0nodes, front := some 1, back := some 2 }

end Thor

namespace DrmCore

lemma lookupBuf_not_mem (bs : List (Nat × BufferObject)) (off : Nat)
    (h : off ∉ bs.map Prod.fst) : lookupBuf bs off = none := by
  induction bs with
  | nil => rfl
  | cons e es ih =>
      simp only [List.map_cons, List.mem_cons, not_or] at h
      have hne : ¬ e.1 = off := fun hh => h.1 hh.symm
      simp only [lookupBuf, if_neg hne]
      exact ih h.2

lemma foldl_postEvent (es : List Event) (f : File) :
    es.foldl File.postEvent f
      = { f with pendingEvents := f.pendingEvents ++ es } := by
  induction es generalizing f with
  | nil => simp
  | cons e es ih =>
      simp only [List.foldl_cons, ih, File.postEvent, List.append_assoc,
        List.singleton_append]

lemma drainN_spec (es : List Event) (f : File) (h : f.pendingEvents = es) :
    File.drainN es.length f
      = (es, { f with pendingEvents := [],
                      eventSequence := f.eventSequence + es.length }) := by
  induction es generalizing f with
  | nil =>
      simp only [List.length_nil, File.drainN, Nat.add_zero]
      rw [← h]
  | cons e es ih =>
      simp only [List.length_cons, File.drainN, File.read, h]
      rw [ih { f with pendingEvents := es,
                      eventSequence := f.eventSequence + 1 } rfl]
      simp [Nat.add_comm, Nat.add_assoc, Nat.add_left_comm]

lemma read_event_sequence (g : File) (e : Event) (g1 : File)
    (h : g.read = (ReadResult.event e, g1)) :
    g1.eventSequence = g.eventSequence + 1 := by
  unfold File.read at h
  cases hp : g.pendingEvents with
  | nil =>
      rw [hp] at h
      by_cases hb : g.isBlocking <;> simp [hb] at h
  | cons x rest =>
      rw [hp] at h
      simp only [Prod.mk.injEq] at h
      rw [← h.2]

/-- C2: for every BufferObject registered on a File via `createHandle`,
resolving the returned offset yields that BufferObject back; any offset
never handed out by `createHandle` on that File (it is absent from the
handle table) fails to resolve with not-found. -/
theorem handle_roundtrip (f : File) (bo : BufferObject) (off : Nat)
    (h : off ∉ f.buffers.map Prod.fst) :
    (f.createHandle bo).2.resolveHandle (f.createHandle bo).1 = some bo ∧
    f.resolveHandle off = none := by
  constructor
  · simp [File.createHandle, File.resolveHandle, lookupBuf]
  · exact lookupBuf_not_mem f.buffers off h

theorem handle_roundtrip_witness :
    ((File.new.createHandle ⟨4, 8, 4096⟩).2.resolveHandle
        (File.new.createHandle ⟨4, 8, 4096⟩).1 = some ⟨4, 8, 4096⟩) ∧
    File.new.resolveHandle 7 = none :=
  handle_roundtrip File.new ⟨4, 8, 4096⟩ 7 (by decide)

/-- C3: posting events in order onto a File whose queue is empty and then
draining via `read` returns exactly that order; the event sequence counter
grows by one on every successful read, hence strictly increases. -/
theorem event_fifo (f : File) (es : List Event) (h : f.pendingEvents = []) :
    (File.drainN es.length (es.foldl File.postEvent f)).1 = es ∧
    (File.drainN es.length (es.foldl File.postEvent f)).2.eventSequence
      = f.eventSequence + es.length ∧
    ∀ g e g1, File.read g = (ReadResult.event e, g1) →
      g.eventSequence < g1.eventSequence := by
  have hfold : es.foldl File.postEvent f
      = { f with pendingEvents := es } := by
    rw [foldl_postEvent, h]
    simp
  have hd := drainN_spec es (es.foldl File.postEvent f) (by rw [hfold])
  refine ⟨by rw [hd], ?_, ?_⟩
  · rw [hd, hfold]
  · intro g e g1 hr
    rw [read_event_sequence g e g1 hr]
    omega

theorem event_fifo_witness :
    (File.drainN [Event.mk 1 1 1, Event.mk 2 2 2].length
        ([Event.mk 1 1 1, Event.mk 2 2 2].foldl File.postEvent File.new)).1
      = [Event.mk 1 1 1, Event.mk 2 2 2] ∧
    (File.drainN [Event.mk 1 1 1, Event.mk 2 2 2].length
        ([Event.mk 1 1 1, Event.mk 2 2 2].foldl File.postEvent File.new)).2.eventSequence
      = File.new.eventSequence + [Event.mk 1 1 1, Event.mk 2 2 2].length ∧
    ∀ g e g1, File.read g = (ReadResult.event e, g1) →
      g.eventSequence < g1.eventSequence :=
  event_fifo File.new [Event.mk 1 1 1, Event.mk 2 2 2] rfl

/-- C4: after `exportBufferObject` succeeds for the BufferObject held under
handle `h` on one File, `importBufferObject` of that credential on any File
returns the very same BufferObject (so its `getMemory` descriptor/offset
pair equals the original's), installed under the importing File's own next
local handle — a numbering independent of `h` — and resolvable there. -/
theorem export_import_aliasing (f1 f2 : File) (tab : CredTable)
    (h cred : Nat) (bo : BufferObject)
    (hres : f1.resolveHandle h = some bo) :
    (f1.exportBufferObject tab h cred).1 = true ∧
    f2.importBufferObject (f1.exportBufferObject tab h cred).2 cred
      = some (bo, f2.nextHandle, (f2.createHandle bo).2) ∧
    (f2.createHandle bo).2.resolveHandle f2.nextHandle = some bo := by
  unfold File.exportBufferObject
  rw [hres]
  refine ⟨rfl, ?_, ?_⟩
  · simp [File.importBufferObject, lookupBuf, File.createHandle]
  · simp [File.createHandle, File.resolveHandle, lookupBuf]

theorem export_import_aliasing_witness :
    (((File.new.createHandle ⟨4, 8, 64⟩).2.exportBufferObject [] 1 99).1 = true) ∧
    File.new.importBufferObject
        ((File.new.createHandle ⟨4, 8, 64⟩).2.exportBufferObject [] 1 99).2 99
      = some (⟨4, 8, 64⟩, File.new.nextHandle,
          (File.new.createHandle ⟨4, 8, 64⟩).2) ∧
    (File.new.createHandle ⟨4, 8, 64⟩).2.resolveHandle File.new.nextHandle
      = some ⟨4, 8, 64⟩ :=
  export_import_aliasing (File.new.createHandle ⟨4, 8, 64⟩).2 File.new []
    1 99 ⟨4, 8, 64⟩ rfl

/-- C5: the completion signal of a Configuration is one-shot: over any
number of `complete()` calls it fires at most once, `waitForCompletion`
keeps the caller suspended while nothing has fired, and it resolves exactly
once a `complete()` has fired. -/
theorem waitForCompletion_oneshot (k : Nat) :
    (runCompletes OneshotState.pending k).2 ≤ 1 ∧
    waitResolves OneshotState.pending = false ∧
    waitResolves (runCompletes OneshotState.pending k).1 = decide (1 ≤ k) := by
  have hraised : ∀ j, runCompletes OneshotState.raised j
      = (OneshotState.raised, 0) := by
    intro j
    induction j with
    | zero => rfl
    | succ j ih => simp [runCompletes, oneshotRaise, ih]
  cases k with
  | zero => exact ⟨by decide, rfl, by decide⟩
  | succ k =>
      have hk : runCompletes OneshotState.pending (k + 1)
          = (OneshotState.raised, 1) := by
        simp [runCompletes, oneshotRaise, hraised k]
      rw [hk]
      refine ⟨by decide, rfl, ?_⟩
      rw [decide_eq_true (Nat.succ_le_succ (Nat.zero_le k))]
      rfl

/-- C6: a non-blocking File with an empty pending-event queue fails a read
immediately with a would-block condition, never suspends, and the File is
left completely unchanged (no event consumed or reordered). -/
theorem read_nonblocking_empty (f : File) (hb : f.isBlocking = false)
    (he : f.pendingEvents = []) :
    f.read = (ReadResult.wouldBlock, f) := by
  simp [File.read, hb, he]

theorem read_nonblocking_empty_witness :
    (File.new.setBlocking false).isBlocking = false ∧
    (File.new.setBlocking false).pendingEvents = [] ∧
    (File.new.setBlocking false).read
      = (ReadResult.wouldBlock, File.new.setBlocking false) :=
  ⟨rfl, rfl, read_nonblocking_empty (File.new.setBlocking false) rfl rfl⟩

/-- C8: the PrimeFile seeks (absolute, relative, to-end) only ever change
the cursor, which stays inside `[0, size)`; the memory descriptor and the
size are untouched, and `accessMemory` is a pure pass-through of the
descriptor. -/
theorem primeFile_seek_cursor_only (p q : PrimeFile) (o : Int) (r : Nat)
    (h : p.seekAbs o = some (q, r) ∨ p.seekRel o = some (q, r) ∨
        p.seekEof o = some (q, r)) :
    q.memory = p.memory ∧ q.fsize = p.fsize ∧ q.offset = r ∧
    q.offset < p.fsize ∧ p.accessMemory = p.memory := by
  have key : ∀ o2 : Int, p.seekAbs o2 = some (q, r) →
      q.memory = p.memory ∧ q.fsize = p.fsize ∧ q.offset = r ∧
      q.offset < p.fsize ∧ p.accessMemory = p.memory := by
    intro o2 hs
    unfold PrimeFile.seekAbs at hs
    by_cases hc : 0 ≤ o2 ∧ o2 < (p.fsize : Int)
    · rw [if_pos hc] at hs
      simp only [Option.some.injEq, Prod.mk.injEq] at hs
      obtain ⟨hq, hr⟩ := hs
      subst hr
      rw [← hq]
      refine ⟨rfl, rfl, rfl, ?_, rfl⟩
      simp only
      omega
    · rw [if_neg hc] at hs
      cases hs
  rcases h with h | h | h
  · exact key o h
  · unfold PrimeFile.seekRel at h
    exact key _ h
  · unfold PrimeFile.seekEof at h
    exact key _ h

theorem primeFile_seek_cursor_only_witness :
    PrimeFile.seekAbs ⟨5, 0, 10⟩ 3 = some (⟨5, 3, 10⟩, 3) ∧
    ((⟨5, 3, 10⟩ : PrimeFile).memory = (⟨5, 0, 10⟩ : PrimeFile).memory ∧
      (⟨5, 3, 10⟩ : PrimeFile).fsize = (⟨5, 0, 10⟩ : PrimeFile).fsize ∧
      (⟨5, 3, 10⟩ : PrimeFile).offset = 3 ∧
      (⟨5, 3, 10⟩ : PrimeFile).offset < (⟨5, 0, 10⟩ : PrimeFile).fsize ∧
      (⟨5, 0, 10⟩ : PrimeFile).accessMemory = (⟨5, 0, 10⟩ : PrimeFile).memory) :=
  ⟨by decide,
    primeFile_seek_cursor_only ⟨5, 0, 10⟩ ⟨5, 3, 10⟩ 3 3 (Or.inl (by decide))⟩

lemma updateById_not_mem {α : Type} (getId : α → Nat) (upd : α → Option α)
    (xs : List α) (oid : Nat) (h : oid ∉ xs.map getId) :
    updateById getId upd xs oid = none := by
  induction xs with
  | nil => rfl
  | cons x xs ih =>
      simp only [List.map_cons, List.mem_cons, not_or] at h
      have hne : ¬ getId x = oid := fun hh => h.1 hh.symm
      simp [updateById, if_neg hne, ih h.2]

lemma updateById_self {α : Type} (getId : α → Nat) (upd : α → Option α)
    (xs : List α) (x : α) (hmem : x ∈ xs) (hnd : (xs.map getId).Nodup)
    (hupd : upd x = some x) :
    updateById getId upd xs (getId x) = some xs := by
  induction xs with
  | nil => cases hmem
  | cons y ys ih =>
      simp only [List.map_cons, List.nodup_cons] at hnd
      rcases List.mem_cons.mp hmem with rfl | hx
      · simp [updateById, hupd]
      · have hne : ¬ getId y = getId x := by
          intro he
          exact hnd.1 (he ▸ List.mem_map_of_mem getId hx)
        simp [updateById, if_neg hne, ih hx hnd.2]

lemma allIds_parts (dev : DeviceM) (hnd : (allIds dev).Nodup) :
    (dev.planes.map PlaneM.id).Nodup ∧ (dev.crtcs.map CrtcM.id).Nodup ∧
    (dev.connectors.map ConnectorM.id).Nodup ∧
    (∀ i, i ∈ dev.crtcs.map CrtcM.id → i ∉ dev.planes.map PlaneM.id) ∧
    (∀ i, i ∈ dev.connectors.map ConnectorM.id →
      i ∉ dev.planes.map PlaneM.id ∧ i ∉ dev.crtcs.map CrtcM.id) := by
  unfold allIds at hnd
  rw [List.append_assoc, List.nodup_append] at hnd
  obtain ⟨hp, hrest, hdisj⟩ := hnd
  rw [List.nodup_append] at hrest
  obtain ⟨hc, hk, hdisj2⟩ := hrest
  refine ⟨hp, hc, hk, ?_, ?_⟩
  · intro i hi hip
    exact hdisj hip (List.mem_append_left _ hi)
  · intro i hi
    exact ⟨fun hip => hdisj hip (List.mem_append_right _ hi),
      fun hic => hdisj2 hic hi⟩

lemma applyAssignment_plane_self (dev : DeviceM) (p : PlaneM)
    (hmem : p ∈ dev.planes) (hnd : (allIds dev).Nodup) (prop v : Nat)
    (hupd : applyToPlane p prop v = some p) :
    applyAssignment dev { objectId := p.id, propId := prop, value := v }
      = some dev := by
  have h1 := updateById_self PlaneM.id (fun q => applyToPlane q prop v)
    dev.planes p hmem (allIds_parts dev hnd).1 hupd
  simp only [applyAssignment, h1]

lemma applyAssignment_crtc_self (dev : DeviceM) (c : CrtcM)
    (hmem : c ∈ dev.crtcs) (hnd : (allIds dev).Nodup) (prop v : Nat)
    (hupd : applyToCrtc c prop v = some c) :
    applyAssignment dev { objectId := c.id, propId := prop, value := v }
      = some dev := by
  have hnp : c.id ∉ dev.planes.map PlaneM.id :=
    (allIds_parts dev hnd).2.2.2.1 c.id (List.mem_map_of_mem CrtcM.id hmem)
  have h0 := updateById_not_mem PlaneM.id
    (fun q => applyToPlane q prop v) dev.planes c.id hnp
  have h1 := updateById_self CrtcM.id (fun q => applyToCrtc q prop v)
    dev.crtcs c hmem (allIds_parts dev hnd).2.1 hupd
  simp only [applyAssignment, h0, h1]

lemma applyAssignment_connector_self (dev : DeviceM) (k : ConnectorM)
    (hmem : k ∈ dev.connectors) (hnd : (allIds dev).Nodup) (prop v : Nat)
    (hupd : applyToConnector k prop v = some k) :
    applyAssignment dev { objectId := k.id, propId := prop, value := v }
      = some dev := by
  have hparts := (allIds_parts dev hnd).2.2.2.2 k.id
    (List.mem_map_of_mem ConnectorM.id hmem)
  have h0 := updateById_not_mem PlaneM.id
    (fun q => applyToPlane q prop v) dev.planes k.id hparts.1
  have h1 := updateById_not_mem CrtcM.id
    (fun q => applyToCrtc q prop v) dev.crtcs k.id hparts.2
  have h2 := updateById_self ConnectorM.id
    (fun q => applyToConnector q prop v) dev.connectors k hmem
    (allIds_parts dev hnd).2.2.1 hupd
  simp only [applyAssignment, h0, h1, h2]

/-- C7: feeding any already-applied ModeObject's retrieved assignment
vector back through `capture` succeeds on a well-formed device and the
candidate AtomicState it produces is the current live state itself. -/
theorem capture_getAssignments_idempotent (dev : DeviceM)
    (hnd : (allIds dev).Nodup) (hv : validateState dev = true) :
    (∀ p ∈ dev.planes, capture p.getAssignments dev = some dev) ∧
    (∀ c ∈ dev.crtcs, capture c.getAssignments dev = some dev) ∧
    (∀ k ∈ dev.connectors, capture k.getAssignments dev = some dev) := by
  refine ⟨?_, ?_, ?_⟩
  · intro p hp
    have hu1 : applyToPlane p propCrtcId p.crtcId = some p := by
      simp [applyToPlane]
    have hu2 : applyToPlane p propFbId p.fbId = some p := by
      simp [applyToPlane, propFbId, propCrtcId]
    have ha1 := applyAssignment_plane_self dev p hp hnd propCrtcId p.crtcId hu1
    have ha2 := applyAssignment_plane_self dev p hp hnd propFbId p.fbId hu2
    simp [capture, PlaneM.getAssignments, applyAll, ha1, ha2, hv]
  · intro c hc
    have hu1 : applyToCrtc c propActive (if c.active then 1 else 0)
        = some c := by
      have hb : ((if c.active then (1 : Nat) else 0) != 0) = c.active := by
        cases c.active <;> rfl
      simp only [applyToCrtc, hb]
      simp
    have hu2 : applyToCrtc c propModeId c.modeBlob = some c := by
      simp [applyToCrtc, propModeId, propActive]
    have ha1 := applyAssignment_crtc_self dev c hc hnd propActive
      (if c.active then 1 else 0) hu1
    have ha2 := applyAssignment_crtc_self dev c hc hnd propModeId
      c.modeBlob hu2
    simp [capture, CrtcM.getAssignments, applyAll, ha1, ha2, hv]
  · intro k hk
    have hu1 : applyToConnector k propCrtcId k.crtcId = some k := by
      simp [applyToConnector]
    have hu2 : applyToConnector k propDpms k.dpms = some k := by
      simp [applyToConnector, propDpms, propCrtcId]
    have ha1 := applyAssignment_connector_self dev k hk hnd propCrtcId
      k.crtcId hu1
    have ha2 := applyAssignment_connector_self dev k hk hnd propDpms
      k.dpms hu2
    simp [capture, ConnectorM.getAssignments, applyAll, ha1, ha2, hv]

theorem capture_getAssignments_idempotent_witness :
    capture
        (PlaneM.getAssignments
          { id := 2, possibleCrtcs := [1], crtcId := 1, fbId := 20 }) devW
      = some devW :=
  (capture_getAssignments_idempotent devW (by decide) (by decide)).1
    { id := 2, possibleCrtcs := [1], crtcId := 1, fbId := 20 } (by decide)

/-- C1: when `capture` fails, the reconfiguration step leaves the live
device untouched — every ModeObject's assignment vector is identical
before and after — and no candidate AtomicState is produced. -/
theorem capture_failure_atomic (dev : DeviceM) (A : List Assignment)
    (h : (configure dev A).1 = false) :
    (configure dev A).2 = dev ∧
    allAssignments (configure dev A).2 = allAssignments dev ∧
    capture A dev = none := by
  unfold configure at h ⊢
  cases hc : capture A dev with
  | none => simp
  | some st =>
      rw [hc] at h
      simp at h

theorem capture_failure_atomic_witness :
    ((configure devW [{ objectId := 99, propId := propCrtcId, value := 1 }]).1
        = false) ∧
    ((configure devW [{ objectId := 99, propId := propCrtcId, value := 1 }]).2
        = devW ∧
      allAssignments
          (configure devW
            [{ objectId := 99, propId := propCrtcId, value := 1 }]).2
        = allAssignments devW ∧
      capture [{ objectId := 99, propId := propCrtcId, value := 1 }] devW
        = none) :=
  ⟨by decide,
    capture_failure_atomic devW
      [{ objectId := 99, propId := propCrtcId, value := 1 }] (by decide)⟩

/-- C10: a newly constructed File starts in blocking mode, so a read on
its empty event queue suspends the caller instead of reporting a
would-block condition. -/
theorem new_file_blocking :
    File.new.isBlocking = true ∧
    File.new.read = (ReadResult.suspend, File.new) :=
  ⟨rfl, rfl⟩

end DrmCore

namespace Thor

lemma seg_frame {f g : Nat → ThreadNode} {p x y n : Option Nat}
    {l : List Nat} (h : Seg f p x l y n) (hfg : ∀ a ∈ l, g a = f a) :
    Seg g p x l y n := by
  induction h with
  | nil p n => exact Seg.nil p n
  | cons p a x l y n ha hseg ih =>
      exact Seg.cons p a x l y n
        ((hfg a (List.mem_cons_self a l)).trans ha)
        (ih fun b hb => hfg b (List.mem_cons_of_mem a hb))

lemma seg_nil_inv {f : Nat → ThreadNode} {p x y n : Option Nat}
    (h : Seg f p x [] y n) : x = n ∧ y = p := by
  cases h
  exact ⟨rfl, rfl⟩

lemma seg_cons_inv {f : Nat → ThreadNode} {p x y n : Option Nat} {a : Nat}
    {l : List Nat} (h : Seg f p x (a :: l) y n) :
    x = some a ∧ ∃ x2, f a = { next := x2, prev := p }
      ∧ Seg f (some a) x2 l y n := by
  cases h with
  | cons p a x2 l y n ha hseg => exact ⟨rfl, x2, ha, hseg⟩

lemma seg_append {f : Nat → ThreadNode} {p x y m z n : Option Nat}
    {l1 l2 : List Nat} (h1 : Seg f p x l1 y m) (h2 : Seg f y m l2 z n) :
    Seg f p x (l1 ++ l2) z n := by
  revert h2
  induction h1 with
  | nil p2 n2 =>
      intro h2
      exact h2
  | cons p2 a x2 l y2 n2 ha hseg ih =>
      intro h2
      exact Seg.cons p2 a x2 (l ++ l2) z n ha (ih h2)

lemma seg_split {f : Nat → ThreadNode} {p x y n : Option Nat} {a : Nat}
    {l1 l2 : List Nat} (h : Seg f p x (l1 ++ a :: l2) y n) :
    ∃ y1 x2, Seg f p x l1 y1 (some a) ∧
      f a = { next := x2, prev := y1 } ∧ Seg f (some a) x2 l2 y n := by
  induction l1 generalizing p x with
  | nil =>
      simp only [List.nil_append] at h
      obtain ⟨hx, x2, ha, hseg⟩ := seg_cons_inv h
      subst hx
      exact ⟨p, x2, Seg.nil p (some a), ha, hseg⟩
  | cons b l1 ih =>
      simp only [List.cons_append] at h
      obtain ⟨hx, x2, hb, hseg⟩ := seg_cons_inv h
      subst hx
      obtain ⟨y1, x3, hs1, ha, hs2⟩ := ih hseg
      exact ⟨y1, x3, Seg.cons p b x2 l1 y1 (some a) hb hs1, ha, hs2⟩

lemma seg_last_or {f : Nat → ThreadNode} {p x y n : Option Nat}
    {l : List Nat} (h : Seg f p x l y n) :
    (l = [] ∧ y = p) ∨ ∃ l1 b, l = l1 ++ [b] ∧ y = some b := by
  induction h with
  | nil p n => exact Or.inl ⟨rfl, rfl⟩
  | cons p a x l y n ha hseg ih =>
      rcases ih with ⟨hl, hy⟩ | ⟨l1, b, hl, hy⟩
      · subst hl
        exact Or.inr ⟨[], a, rfl, hy⟩
      · exact Or.inr ⟨a :: l1, b, by rw [hl]; rfl, hy⟩

lemma inv_empty_iff {q : ThreadQueue} {l : List Nat} (h : Inv q l) :
    q.emptyq = true ↔ l = [] := by
  obtain ⟨hseg, _⟩ := h
  cases l with
  | nil =>
      obtain ⟨hx, _⟩ := seg_nil_inv hseg
      simp [ThreadQueue.emptyq, hx]
  | cons a l2 =>
      obtain ⟨hx, _⟩ := seg_cons_inv hseg
      simp [ThreadQueue.emptyq, hx]

lemma inv_addBack {q : ThreadQueue} {l : List Nat} {t : Nat} (h : Inv q l)
    (ht : t ∉ l) (hnode : q.nodes t = { next := none, prev := none }) :
    Inv (q.addBack t) (l ++ [t]) := by
  obtain ⟨hseg, hnd⟩ := h
  cases l with
  | nil =>
      obtain ⟨hx, hy⟩ := seg_nil_inv hseg
      simp only [ThreadQueue.addBack, hx, List.nil_append]
      refine ⟨?_, by simp⟩
      exact Seg.cons none t none [] (some t) none hnode
        (Seg.nil (some t) none)
  | cons a l2 =>
      obtain ⟨hx, _⟩ := seg_cons_inv hseg
      rcases seg_last_or hseg with ⟨hl, _⟩ | ⟨l1, b, hl, hy⟩
      · cases hl
      · have hbl : b ∈ a :: l2 := by
          rw [hl]
          exact List.mem_append_right l1 (List.mem_singleton.mpr rfl)
        have htb : t ≠ b := fun he => ht (he ▸ hbl)
        have htl1 : t ∉ l1 := fun hm =>
          ht (hl ▸ List.mem_append_left [b] hm)
        have hbl1 : b ∉ l1 := by
          have := hnd
          rw [hl] at this
          intro hm
          rcases List.nodup_append.mp this with ⟨_, _, hdisj⟩
          exact hdisj hm (List.mem_singleton.mpr rfl)
        rw [hl] at hseg
        obtain ⟨y1, x2, hs1, hb, hs2⟩ := seg_split hseg
        obtain ⟨hx2, _⟩ := seg_nil_inv hs2
        subst hx2
        simp only [ThreadQueue.addBack, hx, hy]
        constructor
        · have hfr : ∀ c ∈ l1,
              Function.update
                (Function.update q.nodes t
                  { next := (q.nodes t).next, prev := some b })
                b { next := some t, prev := (q.nodes b).prev } c
              = q.nodes c := by
            intro c hc
            rw [Function.update_noteq (ne_of_mem_of_not_mem hc hbl1),
              Function.update_noteq (ne_of_mem_of_not_mem hc htl1)]
          have hs1f := seg_frame hs1 hfr
          have hfb : Function.update
              (Function.update q.nodes t
                { next := (q.nodes t).next, prev := some b })
              b { next := some t, prev := (q.nodes b).prev }
              b = { next := some t, prev := y1 } := by
            rw [Function.update_same, hb]
          have hft : Function.update
              (Function.update q.nodes t
                { next := (q.nodes t).next, prev := some b })
              b { next := some t, prev := (q.nodes b).prev }
              t = { next := none, prev := some b } := by
            rw [Function.update_noteq htb, Function.update_same, hnode]
          have htail : Seg
              (Function.update
                (Function.update q.nodes t
                  { next := (q.nodes t).next, prev := some b })
                b { next := some t, prev := (q.nodes b).prev })
              y1 (some b) [b, t] (some t) none :=
            Seg.cons y1 b (some t) [t] (some t) none hfb
              (Seg.cons (some b) t none [] (some t) none hft
                (Seg.nil (some t) none))
          have hj := seg_append hs1f htail
          rw [hx] at hj
          have hll : (a :: l2) ++ [t] = l1 ++ [b, t] := by
            rw [hl, List.append_assoc]
            rfl
          rw [hll]
          exact hj
        · rw [List.nodup_append]
          exact ⟨hnd, List.nodup_singleton t,
            fun c hc hct => ht ((List.mem_singleton.mp hct) ▸ hc)⟩

lemma inv_removeFront {q : ThreadQueue} {a : Nat} {rest : List Nat}
    (h : Inv q (a :: rest)) :
    (q.removeFront).1 = a ∧ Inv (q.removeFront).2 rest := by
  obtain ⟨hseg, hnd⟩ := h
  obtain ⟨hx, x2, ha, htail⟩ := seg_cons_inv hseg
  simp only [List.nodup_cons] at hnd
  obtain ⟨hamem, hndr⟩ := hnd
  cases rest with
  | nil =>
      obtain ⟨hx2, hy⟩ := seg_nil_inv htail
      subst hx2
      simp only [ThreadQueue.removeFront, hx, ha]
      exact ⟨by trivial, Seg.nil none none, List.nodup_nil⟩
  | cons b rest2 =>
      obtain ⟨hx2, x3, hb, htail2⟩ := seg_cons_inv htail
      subst hx2
      have hab : a ≠ b := fun he => hamem (he ▸ List.mem_cons_self b rest2)
      simp only [ThreadQueue.removeFront, hx, ha]
      refine ⟨by trivial, ?_, hndr⟩
      have hfb : Function.update
          (Function.update q.nodes a { next := none, prev := none }) b
          { next :=
              (Function.update q.nodes a
                { next := none, prev := none } b).next,
            prev := none } b
          = { next := x3, prev := none } := by
        rw [Function.update_same,
          Function.update_noteq (Ne.symm hab), hb]
      have hfr : ∀ c ∈ rest2,
          Function.update
            (Function.update q.nodes a { next := none, prev := none }) b
            { next :=
                (Function.update q.nodes a
                  { next := none, prev := none } b).next,
              prev := none } c
            = q.nodes c := by
        intro c hc
        simp only [List.nodup_cons] at hndr
        rw [Function.update_noteq (ne_of_mem_of_not_mem hc hndr.1),
          Function.update_noteq
            (ne_of_mem_of_not_mem (List.mem_cons_of_mem b hc) hamem)]
      exact Seg.cons none b x3 rest2 q.back none hfb
        (seg_frame htail2 hfr)

lemma inv_remove {q : ThreadQueue} {l : List Nat} {t : Nat} (h : Inv q l)
    (ht : t ∈ l) :
    (q.remove t).1 = t ∧ Inv (q.remove t).2 (l.erase t) := by
  obtain ⟨hseg, hnd⟩ := h
  obtain ⟨l1, l2, hl⟩ := List.append_of_mem ht
  subst hl
  rcases List.nodup_append.mp hnd with ⟨hnd1, hndc, hdisj0⟩
  simp only [List.nodup_cons] at hndc
  obtain ⟨htl2, hnd2⟩ := hndc
  have htl1 : t ∉ l1 := fun hm => hdisj0 hm (List.mem_cons_self t l2)
  have hdisj : ∀ c ∈ l1, c ∉ l2 :=
    fun c hc hc2 => hdisj0 hc (List.mem_cons_of_mem t hc2)
  have herase : (l1 ++ t :: l2).erase t = l1 ++ l2 := by
    rw [List.erase_append_right _ htl1, List.erase_cons_head]
  obtain ⟨y1, x2, hs1, htt, hs2⟩ := seg_split hseg
  rw [herase]
  cases l2 with
  | nil =>
      obtain ⟨hx2, hback⟩ := seg_nil_inv hs2
      subst hx2
      cases l1 with
      | nil =>
          obtain ⟨hfront, hy1⟩ := seg_nil_inv hs1
          subst hy1
          simp only [ThreadQueue.remove, htt, if_pos hback, if_pos hfront,
            List.append_nil, List.nil_append]
          exact ⟨by trivial, Seg.nil none none, List.nodup_nil⟩
      | cons d l1r =>
          obtain ⟨hfd, _⟩ := seg_cons_inv hs1
          have hdt : d ≠ t :=
            fun he => htl1 (he ▸ List.mem_cons_self d l1r)
          have hfrontne : ¬ q.front = some t := by
            rw [hfd]
            intro he
            exact hdt (Option.some.inj he)
          rcases seg_last_or hs1 with ⟨hemp, _⟩ | ⟨lp, pl, hlp, hy1⟩
          · cases hemp
          · subst hy1
            rw [hlp] at hs1
            obtain ⟨y2, x4, hsp1, hpl, hsp2⟩ := seg_split hs1
            obtain ⟨hx4, _⟩ := seg_nil_inv hsp2
            subst hx4
            have hplmem : pl ∈ d :: l1r := by
              rw [hlp]
              exact List.mem_append_right lp (List.mem_singleton.mpr rfl)
            have hplt : pl ≠ t := fun he => htl1 (he ▸ hplmem)
            have hpl_lp : pl ∉ lp := by
              have hcopy := hnd1
              rw [hlp] at hcopy
              rcases List.nodup_append.mp hcopy with ⟨_, _, hdj⟩
              exact fun hm => hdj hm (List.mem_singleton.mpr rfl)
            have ht_lp : t ∉ lp :=
              fun hm => htl1 (hlp ▸ List.mem_append_left [pl] hm)
            simp only [ThreadQueue.remove, htt, if_pos hback,
              if_neg hfrontne, List.append_nil]
            refine ⟨by trivial, ?_, hnd1⟩
            have hf1pl : Function.update q.nodes t
                { next := none, prev := none } pl
                = { next := some t, prev := y2 } := by
              rw [Function.update_noteq hplt, hpl]
            have hfpl : Function.update
                (Function.update q.nodes t { next := none, prev := none })
                pl
                { next := none,
                  prev := (Function.update q.nodes t
                    { next := none, prev := none } pl).prev } pl
                = { next := none, prev := y2 } := by
              rw [Function.update_same, hf1pl]
            have hfr : ∀ c ∈ lp, Function.update
                (Function.update q.nodes t { next := none, prev := none })
                pl
                { next := none,
                  prev := (Function.update q.nodes t
                    { next := none, prev := none } pl).prev } c
                = q.nodes c := by
              intro c hc
              rw [Function.update_noteq (ne_of_mem_of_not_mem hc hpl_lp),
                Function.update_noteq (ne_of_mem_of_not_mem hc ht_lp)]
            have hjoin := seg_append (seg_frame hsp1 hfr)
              (Seg.cons y2 pl none [] (some pl) none hfpl
                (Seg.nil (some pl) none))
            rw [← hlp] at hjoin
            exact hjoin
  | cons c l2r =>
      obtain ⟨hx2c, x3, hc, hs2t⟩ := seg_cons_inv hs2
      subst hx2c
      have hct : c ≠ t :=
        fun he => htl2 (he ▸ List.mem_cons_self c l2r)
      have hbackne : ¬ q.back = some t := by
        rcases seg_last_or hs2 with ⟨habs, _⟩ | ⟨lq, b, hlq, hb⟩
        · cases habs
        · rw [hb]
          intro he
          have hbmem : b ∈ c :: l2r := by
            rw [hlq]
            exact List.mem_append_right lq (List.mem_singleton.mpr rfl)
          exact htl2 ((Option.some.inj he) ▸ hbmem)
      simp only [List.nodup_cons] at hnd2
      obtain ⟨hc_l2r, hnd2r⟩ := hnd2
      have ht_l2r : t ∉ l2r :=
        fun hm => htl2 (List.mem_cons_of_mem c hm)
      cases l1 with
      | nil =>
          obtain ⟨hfront, hy1⟩ := seg_nil_inv hs1
          subst hy1
          simp only [ThreadQueue.remove, htt, if_neg hbackne,
            if_pos hfront, List.nil_append]
          refine ⟨by trivial, ?_, List.nodup_cons.mpr ⟨hc_l2r, hnd2r⟩⟩
          have hf1c : Function.update q.nodes t
              { next := none, prev := none } c
              = { next := x3, prev := some t } := by
            rw [Function.update_noteq hct, hc]
          have hfc : Function.update
              (Function.update q.nodes t { next := none, prev := none }) c
              { next := (Function.update q.nodes t
                  { next := none, prev := none } c).next,
                prev := none } c
              = { next := x3, prev := none } := by
            rw [Function.update_same, hf1c]
          have hfr : ∀ e ∈ l2r, Function.update
              (Function.update q.nodes t { next := none, prev := none }) c
              { next := (Function.update q.nodes t
                  { next := none, prev := none } c).next,
                prev := none } e
              = q.nodes e := by
            intro e he
            rw [Function.update_noteq (ne_of_mem_of_not_mem he hc_l2r),
              Function.update_noteq (ne_of_mem_of_not_mem he ht_l2r)]
          exact Seg.cons none c x3 l2r q.back none hfc
            (seg_frame hs2t hfr)
      | cons d l1r =>
          obtain ⟨hfd, _⟩ := seg_cons_inv hs1
          have hdt : d ≠ t :=
            fun he => htl1 (he ▸ List.mem_cons_self d l1r)
          have hfrontne : ¬ q.front = some t := by
            rw [hfd]
            intro he
            exact hdt (Option.some.inj he)
          rcases seg_last_or hs1 with ⟨hemp, _⟩ | ⟨lp, pl, hlp, hy1⟩
          · cases hemp
          · subst hy1
            rw [hlp] at hs1
            obtain ⟨y2, x4, hsp1, hpl, hsp2⟩ := seg_split hs1
            obtain ⟨hx4, _⟩ := seg_nil_inv hsp2
            subst hx4
            have hplmem : pl ∈ d :: l1r := by
              rw [hlp]
              exact List.mem_append_right lp (List.mem_singleton.mpr rfl)
            have hplt : pl ≠ t := fun he => htl1 (he ▸ hplmem)
            have hpl_lp : pl ∉ lp := by
              have hcopy := hnd1
              rw [hlp] at hcopy
              rcases List.nodup_append.mp hcopy with ⟨_, _, hdj⟩
              exact fun hm => hdj hm (List.mem_singleton.mpr rfl)
            have ht_lp : t ∉ lp :=
              fun hm => htl1 (hlp ▸ List.mem_append_left [pl] hm)
            have hplc : pl ≠ c :=
              fun he => (hdisj pl hplmem) (he ▸ List.mem_cons_self c l2r)
            have hc_lp : c ∉ lp := fun hm =>
              (hdisj c (hlp ▸ List.mem_append_left [pl] hm))
                (List.mem_cons_self c l2r)
            have hpl_l2r : pl ∉ l2r :=
              fun hm => (hdisj pl hplmem) (List.mem_cons_of_mem c hm)
            simp only [ThreadQueue.remove, htt, if_neg hbackne,
              if_neg hfrontne]
            refine ⟨by trivial, ?_, List.nodup_append.mpr
              ⟨hnd1, List.nodup_cons.mpr ⟨hc_l2r, hnd2r⟩,
                fun e he he2 => hdisj e he he2⟩⟩
            have hf1c : Function.update q.nodes t
                { next := none, prev := none } c
                = { next := x3, prev := some t } := by
              rw [Function.update_noteq hct, hc]
            have hfbc : Function.update
                (Function.update q.nodes t { next := none, prev := none }) c
                { next := (Function.update q.nodes t
                    { next := none, prev := none } c).next,
                  prev := some pl } c
                = { next := x3, prev := some pl } := by
              rw [Function.update_same, hf1c]
            have hfbpl : Function.update
                (Function.update q.nodes t { next := none, prev := none }) c
                { next := (Function.update q.nodes t
                    { next := none, prev := none } c).next,
                  prev := some pl } pl
                = { next := some t, prev := y2 } := by
              rw [Function.update_noteq hplc, Function.update_noteq hplt,
                hpl]
            have hfpl : Function.update
                (Function.update
                  (Function.update q.nodes t { next := none, prev := none })
                  c
                  { next := (Function.update q.nodes t
                      { next := none, prev := none } c).next,
                    prev := some pl })
                pl
                { next := some c,
                  prev := (Function.update
                    (Function.update q.nodes t
                      { next := none, prev := none })
                    c
                    { next := (Function.update q.nodes t
                        { next := none, prev := none } c).next,
                      prev := some pl } pl).prev } pl
                = { next := some c, prev := y2 } := by
              rw [Function.update_same, hfbpl]
            have hfc : Function.update
                (Function.update
                  (Function.update q.nodes t { next := none, prev := none })
                  c
                  { next := (Function.update q.nodes t
                      { next := none, prev := none } c).next,
                    prev := some pl })
                pl
                { next := some c,
                  prev := (Function.update
                    (Function.update q.nodes t
                      { next := none, prev := none })
                    c
                    { next := (Function.update q.nodes t
                        { next := none, prev := none } c).next,
                      prev := some pl } pl).prev } c
                = { next := x3, prev := some pl } := by
              rw [Function.update_noteq (Ne.symm hplc), hfbc]
            have hfrL : ∀ e ∈ lp, Function.update
                (Function.update
                  (Function.update q.nodes t { next := none, prev := none })
                  c
                  { next := (Function.update q.nodes t
                      { next := none, prev := none } c).next,
                    prev := some pl })
                pl
                { next := some c,
                  prev := (Function.update
                    (Function.update q.nodes t
                      { next := none, prev := none })
                    c
                    { next := (Function.update q.nodes t
                        { next := none, prev := none } c).next,
                      prev := some pl } pl).prev } e
                = q.nodes e := by
              intro e he
              rw [Function.update_noteq (ne_of_mem_of_not_mem he hpl_lp),
                Function.update_noteq (ne_of_mem_of_not_mem he hc_lp),
                Function.update_noteq (ne_of_mem_of_not_mem he ht_lp)]
            have hfrR : ∀ e ∈ l2r, Function.update
                (Function.update
                  (Function.update q.nodes t { next := none, prev := none })
                  c
                  { next := (Function.update q.nodes t
                      { next := none, prev := none } c).next,
                    prev := some pl })
                pl
                { next := some c,
                  prev := (Function.update
                    (Function.update q.nodes t
                      { next := none, prev := none })
                    c
                    { next := (Function.update q.nodes t
                        { next := none, prev := none } c).next,
                      prev := some pl } pl).prev } e
                = q.nodes e := by
              intro e he
              rw [Function.update_noteq (ne_of_mem_of_not_mem he hpl_l2r),
                Function.update_noteq (ne_of_mem_of_not_mem he hc_l2r),
                Function.update_noteq (ne_of_mem_of_not_mem he ht_l2r)]
            have hleft := seg_append (seg_frame hsp1 hfrL)
              (Seg.cons y2 pl (some c) [] (some pl) (some c) hfpl
                (Seg.nil (some pl) (some c)))
            rw [← hlp] at hleft
            have hright : Seg _ (some pl) (some c) (c :: l2r) q.back none :=
              Seg.cons (some pl) c x3 l2r q.back none hfc
                (seg_frame hs2t hfrR)
            exact seg_append hleft hright

/-- C9: `ThreadQueue` of thread.cpp is a correct FIFO doubly-linked queue:
on a queue whose links represent the distinct thread list `l`, `empty()`
is true exactly when no thread is enqueued; `addBack` of a fresh unlinked
thread appends it at the back (so repeated `removeFront` returns threads
in insertion order); `removeFront` on a non-empty queue returns the front
thread leaving the rest linked in order; and `remove t` for a queued `t`
returns `t` and leaves exactly the prior threads minus `t` in their prior
relative order. -/
theorem threadQueue_correct (q : ThreadQueue) (l : List Nat)
    (hInv : Inv q l) :
    (q.emptyq = true ↔ l = []) ∧
    (∀ t, t ∉ l → q.nodes t = { next := none, prev := none } →
      Inv (q.addBack t) (l ++ [t])) ∧
    (∀ a rest, l = a :: rest →
      (q.removeFront).1 = a ∧ Inv (q.removeFront).2 rest) ∧
    (∀ t, t ∈ l → (q.remove t).1 = t ∧ Inv (q.remove t).2 (l.erase t)) := by
  refine ⟨inv_empty_iff hInv, fun t ht hn => inv_addBack hInv ht hn,
    fun a rest hl => ?_, fun t ht => inv_remove hInv ht⟩
  subst hl
  exact inv_removeFront hInv

theorem threadQueue_correct_witness :
    ((q0.removeFront).1 = 1 ∧ Inv (q0.removeFront).2 [2]) ∧
    ((q0.remove 2).1 = 2 ∧ Inv (q0.remove 2).2 ([1, 2].erase 2)) :=
  ⟨(threadQueue_correct q0 [1, 2]
      ⟨Seg.cons none 1 (some 2) [2] (some 2) none rfl
          (Seg.cons (some 1) 2 none [] (some 2) none rfl
            (Seg.nil (some 2) none)),
        by decide⟩).2.2.1 1 [2] rfl,
    (threadQueue_correct q0 [1, 2]
      ⟨Seg.cons none 1 (some 2) [2] (some 2) none rfl
          (Seg.cons (some 1) 2 none [] (some 2) none rfl
            (Seg.nil (some 2) none)),
        by decide⟩).2.2.2 2 (by decide)⟩

end Thor
